import Mathlib

/-!
Shallow embedding of the quantum-circuit transpiler in `src/main.rs`.

Conventions of the embedding:
* Rust `usize` values (qubit indices, counts) are modelled as `Nat`; no
  arithmetic here can overflow for the inputs of interest, and the source
  never relies on wrap-around (`saturating_sub` is Nat subtraction).
* Rust `f64` parameters (rotation angles) are modelled as `ℚ`; the source
  only adds angles, compares `|x| > 1e-10`, and divides counts, all of which
  are exact on the decimal literals involved.
* Rust `String`/`&str` is modelled as Lean `String`, with the character-level
  operations (`trim`, `split`, `split_whitespace`, `trim_end_matches`,
  numeric parsing) implemented over `List Char` exactly as Rust's `str`
  methods behave on the inputs in question.
* Fallible Rust functions returning `Result<T, String>` become
  `Except String T`.
-/

/-- Struct `Gate` from `main.rs`: name, ordered qubit indices, real parameters. -/
structure Gate where
  name : String
  qubits : List Nat
  params : List ℚ
deriving DecidableEq, Repr

/-- Struct `QuantumCircuit` from `main.rs`. -/
structure QuantumCircuit where
  num_qubits : Nat
  num_clbits : Nat
  gates : List Gate
deriving DecidableEq, Repr

/-- Struct `BackendSpec` from `main.rs`. `coupling_map` is a `Vec<(usize, usize)>`,
hence a list of ordered pairs; `native_gates` is unused by the pipeline. -/
structure BackendSpec where
  name : String
  num_qubits : Nat
  coupling_map : List (Nat × Nat)
  native_gates : List String
deriving DecidableEq, Repr

/-- The check `backend.coupling_map.contains(&(q1, q2)) ||
backend.coupling_map.contains(&(q2, q1))` in `SimpleRouter::route`. -/
def edgeOk (backend : BackendSpec) (q1 q2 : Nat) : Bool :=
  decide ((q1, q2) ∈ backend.coupling_map) || decide ((q2, q1) ∈ backend.coupling_map)

/-- The body of the `for g in &circuit.gates` loop of `SimpleRouter::route`:
for a gate with exactly two qubits whose pair is not on the coupling map
(in either order), a `swap` placeholder is pushed before the gate itself. -/
def SimpleRouter.routeGates (backend : BackendSpec) : List Gate → List Gate
  | [] => []
  | g :: rest =>
    (match g.qubits with
     | [q1, q2] =>
       if edgeOk backend q1 q2 then [g]
       else [Gate.mk "swap" [q1, q2] [], g]
     | _ => [g]) ++ SimpleRouter.routeGates backend rest

/-- Function `SimpleRouter::route` from `main.rs`. -/
def SimpleRouter.route (circuit : QuantumCircuit) (backend : BackendSpec) :
    QuantumCircuit :=
  { num_qubits := circuit.num_qubits
    num_clbits := circuit.num_clbits
    gates := SimpleRouter.routeGates backend circuit.gates }

/-- The block of output gates the spec prescribes for one input gate:
the gate preceded by exactly one parameterless `swap` on the same two
qubits when the gate has exactly two qubit indices and the pair is absent
from the connectivity set in both orders; the gate alone otherwise. -/
def routeSpecBlock (backend : BackendSpec) (g : Gate) : List Gate :=
  match g.qubits with
  | [q1, q2] =>
    if (q1, q2) ∈ backend.coupling_map ∨ (q2, q1) ∈ backend.coupling_map then [g]
    else [Gate.mk "swap" [q1, q2] [], g]
  | _ => [g]

/-- The scanning loop of `GateCancellationPass::optimize`: two immediately
adjacent gates with the same name and the same ordered qubit list are both
dropped (parameters are *not* compared) and the scan resumes after the pair;
otherwise the first gate is kept and the scan advances by one. -/
def GateCancellationPass.cancelGates : List Gate → List Gate
  | [] => []
  | [g] => [g]
  | g1 :: g2 :: rest =>
    if g1.name = g2.name ∧ g1.qubits = g2.qubits then
      GateCancellationPass.cancelGates rest
    else g1 :: GateCancellationPass.cancelGates (g2 :: rest)

/-- Function `GateCancellationPass::optimize` from `main.rs`. -/
def GateCancellationPass.optimize (circuit : QuantumCircuit) : QuantumCircuit :=
  { num_qubits := circuit.num_qubits
    num_clbits := circuit.num_clbits
    gates := GateCancellationPass.cancelGates circuit.gates }

/-- Whether some two immediately adjacent gates of the list share name and
ordered qubit list (the pass's cancellation criterion). -/
def hasAdjPair : List Gate → Bool
  | g1 :: g2 :: rest =>
    (g1.name == g2.name && g1.qubits == g2.qubits) || hasAdjPair (g2 :: rest)
  | _ => false

/-- Function `UniversalTranspiler::calculate_depth` from `main.rs`: one logical clock
per qubit; each gate starts at the maximum clock among its qubits
(out-of-range indices contribute 0), ends one step later, and writes the end
time back to its in-range qubits; the depth is the maximum final clock.
A circuit with zero qubits short-circuits to depth 0. -/
def UniversalTranspiler.calculate_depth (circuit : QuantumCircuit) : Nat :=
  if circuit.num_qubits = 0 then 0
  else
    (circuit.gates.foldl
      (fun qubit_time g =>
        let start := (g.qubits.map (fun q => qubit_time.getD q 0)).foldl max 0
        g.qubits.foldl (fun qt q => qt.set q (start + 1)) qubit_time)
      (List.replicate circuit.num_qubits 0)).foldl max 0

/-- The fixed epsilon `1e-10` of `RotationMergingPass::optimize`. -/
def mergeEps : ℚ := 1 / 10 ^ 10

/-- The continuation test of the inner `while` loop of
`RotationMergingPass::optimize`: `ng.name == "rz" && ng.qubits == vec![q] &&
!ng.params.is_empty()`. -/
def rzRun (q : Nat) (g : Gate) : Bool :=
  g.name == "rz" && g.qubits == [q] && !g.params.isEmpty

/-- The inner `while j < circuit.gates.len()` loop of
`RotationMergingPass::optimize`: starting from the accumulated `angle`, add
the leading parameter of each gate of the contiguous run and return the sum
together with the gates after the run. -/
def RotationMergingPass.collectRz (q : Nat) : ℚ → List Gate → ℚ × List Gate
  | angle, [] => (angle, [])
  | angle, ng :: rest =>
    if rzRun q ng then RotationMergingPass.collectRz q (angle + ng.params.headD 0) rest
    else (angle, ng :: rest)

/-- The outer loop of `RotationMergingPass::optimize`. -/
def RotationMergingPass.mergeGates : List Gate → List Gate
  | [] => []
  | g :: rest =>
    if g.name == "rz" && g.qubits.length == 1 && !g.params.isEmpty then
      let q := g.qubits.headD 0
      let p := RotationMergingPass.collectRz q (g.params.headD 0) rest
      (if |p.1| > mergeEps then [Gate.mk "rz" [q] [p.1]] else []) ++
        RotationMergingPass.mergeGates p.2
    else g :: RotationMergingPass.mergeGates rest
termination_by l => l.length
decreasing_by
  · have h : ∀ (qv : ℕ) (a : ℚ) (l : List Gate),
        (RotationMergingPass.collectRz qv a l).2.length ≤ l.length := by
      intro qv a l
      induction l generalizing a with
      | nil => simp [RotationMergingPass.collectRz]
      | cons ng rest ih =>
        by_cases hr : rzRun qv ng = true
        · simp only [RotationMergingPass.collectRz, if_pos hr, List.length_cons]
          exact le_trans (ih (a + ng.params.headD 0)) (Nat.le_succ _)
        · simp [RotationMergingPass.collectRz, hr]
    have h2 := h (g.qubits.headD 0) (g.params.headD 0) rest
    simp only [List.length_cons]
    omega
  · simp only [List.length_cons]
    omega

/-- Function `RotationMergingPass::optimize` from `main.rs`. -/
def RotationMergingPass.optimize (circuit : QuantumCircuit) : QuantumCircuit :=
  { num_qubits := circuit.num_qubits
    num_clbits := circuit.num_clbits
    gates := RotationMergingPass.mergeGates circuit.gates }

/-- The rotation-merging pass as the spec words it: on a single-qubit `rz`
gate with a parameter, sum the angles of the maximal contiguous run of `rz`
gates on the identical single qubit, emit one merged `rz` gate exactly when
the summed angle's absolute value exceeds `1e-10`, and continue after the
run; any other gate is kept unchanged. -/
def rzMergeSpec : List Gate → List Gate
  | [] => []
  | g :: rest =>
    if g.name == "rz" && g.qubits.length == 1 && !g.params.isEmpty then
      let q := g.qubits.headD 0
      let total := g.params.headD 0 +
        ((rest.takeWhile (rzRun q)).map (fun x => x.params.headD 0)).sum
      (if |total| > mergeEps then [Gate.mk "rz" [q] [total]] else []) ++
        rzMergeSpec (rest.dropWhile (rzRun q))
    else g :: rzMergeSpec rest
termination_by l => l.length
decreasing_by
  · have h : (rest.dropWhile (rzRun (g.qubits.headD 0))).length ≤ rest.length :=
      (List.dropWhile_suffix _).sublist.length_le
    simp only [List.length_cons]
    omega
  · simp only [List.length_cons]
    omega

/-- Rust `str::split` on a character predicate: the substrings between
matching characters, in order, empty pieces kept (so `"".split` gives one
empty piece, and adjacent separators give empty pieces). -/
def rsplit (p : Char → Bool) : List Char → List (List Char)
  | [] => [[]]
  | c :: rest =>
    if p c then [] :: rsplit p rest
    else
      match rsplit p rest with
      | [] => [[c]]
      | h :: t => (c :: h) :: t

/-- Rust `str::trim` (the inputs only involve ASCII whitespace). -/
def trimChars (s : List Char) : List Char :=
  ((s.dropWhile Char.isWhitespace).reverse.dropWhile Char.isWhitespace).reverse

/-- Rust `str::split_whitespace`: maximal non-whitespace tokens, no empties. -/
def splitWs (s : List Char) : List (List Char) :=
  (rsplit Char.isWhitespace s).filter (fun t => !t.isEmpty)

/-- Rust `str::trim_end_matches` with a one-character pattern: removes every
trailing occurrence. -/
def trimEndChar (c : Char) (s : List Char) : List Char :=
  (s.reverse.dropWhile (fun x => x == c)).reverse

/-- Value of a string of ASCII digits, most significant first. -/
def digitsToNat (ds : List Char) : Nat :=
  ds.foldl (fun n c => n * 10 + (c.toNat - '0'.toNat)) 0

/-- Rust `usize::from_str` (as used via `parse::<usize>()`): an optional
leading `+`, then one or more ASCII digits. Overflow is ignored in the `Nat`
model; the qubit indices and register sizes involved are tiny. -/
def parseNatChars (s : List Char) : Option Nat :=
  let digits := match s with
    | '+' :: rest => rest
    | _ => s
  if digits ≠ [] ∧ digits.all Char.isDigit then some (digitsToNat digits)
  else none

/-- The decimal fragment of Rust `f64::from_str` as used on `rz` angles
(optional sign, integer digits, optional `.` and fraction digits), exact
over `ℚ`: the value is sign · (intPart + fracPart / 10 ^ fracLen), built
here as one `mkRat` over integer arithmetic. Scientific notation and
`inf`/`nan` spellings do not occur in this repository's inputs; an
unparsed angle defaults to `0` at the call site either way. -/
def parseFloatChars (s : List Char) : Option ℚ :=
  let sb : Int × List Char := match s with
    | '+' :: rest => (1, rest)
    | '-' :: rest => (-1, rest)
    | _ => (1, s)
  let intPart := sb.2.takeWhile Char.isDigit
  let rest := sb.2.dropWhile Char.isDigit
  match rest with
  | [] =>
    if intPart = [] then none
    else some (mkRat (sb.1 * digitsToNat intPart) 1)
  | '.' :: frac =>
    if frac.all Char.isDigit ∧ (intPart ≠ [] ∨ frac ≠ []) then
      some (mkRat
        (sb.1 * (digitsToNat intPart * 10 ^ frac.length + digitsToNat frac))
        (10 ^ frac.length))
    else none
  | _ => none

/-- Rust `first.find('(')` as a splitting: characters before the first `(` and
those after it, when one exists. -/
def splitAtFirst (c : Char) : List Char → Option (List Char × List Char)
  | [] => none
  | x :: rest =>
    if x == c then some ([], rest)
    else (splitAtFirst c rest).map (fun pr => (x :: pr.1, pr.2))

/-- The delimiters of the qubit-extraction split in `QASMParser::parse_gate`:
`'['`, `']'`, `' '`, `';'`, `','`. -/
def isGateDelim (c : Char) : Bool :=
  c == '[' || c == ']' || c == ' ' || c == ';' || c == ','

/-- The delimiters `['[', ']']` of the register-size split in
`QASMParser::parse`. -/
def isBracketDelim (c : Char) : Bool :=
  c == '[' || c == ']'

/-- The error message `format!("Failed to parse qubits from line: {line}")`. -/
def qubitsErrorMsg (line : List Char) : String :=
  "Failed to parse qubits from line: " ++ String.mk line

/-- The qubit indices `QASMParser::parse_gate` extracts from a line: every
substring of the rest of the line (tokens after the first, re-joined by a
space and re-split on bracket/space/semicolon/comma delimiters) that parses
as a `usize`, in order. -/
def extractedQubits (line : List Char) : List Nat :=
  match splitWs line with
  | [] => []
  | _ :: toks => (rsplit isGateDelim (List.intercalate [' '] toks)).filterMap parseNatChars

/-- Function `QASMParser::parse_gate` from `main.rs`. -/
def QASMParser.parse_gate (line : List Char) : Except String Gate :=
  match splitWs line with
  | [] => .error "empty gate line"
  | tok0 :: toks =>
    let first := trimEndChar ';' tok0
    let np : String × List ℚ :=
      match splitAtFirst '(' first with
      | none => (String.mk first, [])
      | some pr =>
        (String.mk pr.1, [(parseFloatChars (trimEndChar ')' pr.2)).getD 0])
    let qubits := (rsplit isGateDelim (List.intercalate [' '] toks)).filterMap parseNatChars
    if qubits = [] then .error (qubitsErrorMsg line)
    else .ok (Gate.mk np.1 qubits np.2)

/-- The `for line in input.lines()` loop of `QASMParser::parse`, carrying the
mutable `(num_qubits, num_clbits, gates)` state. -/
def QASMParser.parseLines :
    List (List Char) → Nat → Nat → List Gate → Except String QuantumCircuit
  | [], nq, ncl, gates => .ok (QuantumCircuit.mk nq ncl gates)
  | l :: rest, nq, ncl, gates =>
    let line := trimChars l
    if line.isEmpty || "//".data.isPrefixOf line then
      QASMParser.parseLines rest nq ncl gates
    else if "qreg".data.isPrefixOf line then
      match (rsplit isBracketDelim line).get? 1 with
      | some p => QASMParser.parseLines rest ((parseNatChars p).getD 0) ncl gates
      | none => QASMParser.parseLines rest nq ncl gates
    else if "creg".data.isPrefixOf line then
      match (rsplit isBracketDelim line).get? 1 with
      | some p => QASMParser.parseLines rest nq ((parseNatChars p).getD 0) gates
      | none => QASMParser.parseLines rest nq ncl gates
    else if "cx".data.isPrefixOf line || "h".data.isPrefixOf line
        || "x".data.isPrefixOf line || "rz".data.isPrefixOf line then
      match QASMParser.parse_gate line with
      | .error e => .error e
      | .ok g => QASMParser.parseLines rest nq ncl (gates ++ [g])
    else
      QASMParser.parseLines rest nq ncl gates

/-- Function `QASMParser::parse` from `main.rs`. Rust `str::lines` splits on `'\n'`;
the carriage-return stripping and the absence of a trailing empty segment
are absorbed by the per-line `trim` and the empty-line skip that follow. -/
def QASMParser.parse (input : String) : Except String QuantumCircuit :=
  QASMParser.parseLines (rsplit (fun c => c == '\n') input.data) 0 0 []

/-- The first whitespace-separated token of a line (empty for a blank line). -/
def firstToken (l : List Char) : List Char :=
  (splitWs l).headD []

/-- The spec's recognition rule as worded in the claim: the first token
begins with `cx`, `h`, `x`, or `rz`. -/
def recognizedTok (l : List Char) : Bool :=
  "cx".data.isPrefixOf (firstToken l) || "h".data.isPrefixOf (firstToken l) ||
    "x".data.isPrefixOf (firstToken l) || "rz".data.isPrefixOf (firstToken l)

/-- The code's recognition rule: the (trimmed) line itself begins with `cx`,
`h`, `x`, or `rz`. -/
def recognizedB (l : List Char) : Bool :=
  "cx".data.isPrefixOf l || "h".data.isPrefixOf l ||
    "x".data.isPrefixOf l || "rz".data.isPrefixOf l

/-- A non-empty, non-comment line recognized as a gate line whose qubit
extraction comes up empty — the sole parse-failure condition of the claim. -/
def badGateLine (l : List Char) : Bool :=
  !l.isEmpty && !("//".data.isPrefixOf l) && recognizedTok l &&
    (extractedQubits l).isEmpty

/-- Struct `TranspilationStats` from `main.rs` (percentages exact over `ℚ`). -/
structure TranspilationStats where
  original_depth : Nat
  final_depth : Nat
  original_gate_count : Nat
  final_gate_count : Nat
  depth_reduction : ℚ
  gate_reduction : ℚ
deriving DecidableEq, Repr

/-- Struct `TranspilationResult` from `main.rs`. -/
structure TranspilationResult where
  circuit : QuantumCircuit
  stats : TranspilationStats
deriving DecidableEq, Repr

/-- The percentage-reduction formula of `UniversalTranspiler::transpile`:
0 when the original value is 0, otherwise saturating difference over the
original, times 100 (`Nat` subtraction is Rust's `saturating_sub`). -/
def reductionPct (original final : Nat) : ℚ :=
  if original = 0 then 0
  else ((original - final : Nat) : ℚ) / (original : ℚ) * 100

/-- Function `UniversalTranspiler::transpile` from `main.rs`: parse, measure, route,
apply the cancellation pass then the rotation-merging pass, measure again,
and report; a parse error aborts before any of that. -/
def UniversalTranspiler.transpile (input : String) (backend : BackendSpec) :
    Except String TranspilationResult :=
  match QASMParser.parse input with
  | .error e => .error e
  | .ok circ0 =>
    let original_depth := UniversalTranspiler.calculate_depth circ0
    let original_gate_count := circ0.gates.length
    let circ3 := RotationMergingPass.optimize
      (GateCancellationPass.optimize (SimpleRouter.route circ0 backend))
    .ok (TranspilationResult.mk circ3
      (TranspilationStats.mk
        original_depth (UniversalTranspiler.calculate_depth circ3)
        original_gate_count circ3.gates.length
        (reductionPct original_depth (UniversalTranspiler.calculate_depth circ3))
        (reductionPct original_gate_count circ3.gates.length)))

/-- The demo backend of `main`: 5-qubit chain coupling. -/
def demoBackend : BackendSpec :=
  BackendSpec.mk "ibm_demo" 5 [(0, 1), (1, 2), (2, 3), (3, 4)]
    ["x", "h", "cx", "rz"]

/-- The demo QASM program of `main` (the raw string's indentation and blank
first line only add whitespace that the parser trims away). -/
def demoQasm : String :=
  "OPENQASM 2.0;\nqreg q[3];\ncreg c[3];\nh q[0];\ncx q[0], q[1];\ncx q[1], q[2];\nrz(1.5708) q[2];\nrz(1.5708) q[2];"

/-- The circuit parsed from the demo program. -/
def demoParsed : QuantumCircuit :=
  QuantumCircuit.mk 3 3
    [Gate.mk "h" [0] [], Gate.mk "cx" [0, 1] [], Gate.mk "cx" [1, 2] [],
     Gate.mk "rz" [2] [mkRat 15708 10000], Gate.mk "rz" [2] [mkRat 15708 10000]]

/-- The demo circuit after the cancellation pass: the two *identical*
`rz(1.5708) q[2]` gates are adjacent with equal name and qubit list, so the
pass removes both — before rotation merging ever sees them. -/
def demoAfterCancel : QuantumCircuit :=
  QuantumCircuit.mk 3 3
    [Gate.mk "h" [0] [], Gate.mk "cx" [0, 1] [], Gate.mk "cx" [1, 2] []]

/-! ### Theorems -/

theorem routeGates_eq_flatten (backend : BackendSpec) (gs : List Gate) :
    SimpleRouter.routeGates backend gs = (gs.map (routeSpecBlock backend)).flatten := by
  induction gs with
  | nil => rfl
  | cons g rest ih =>
    simp only [SimpleRouter.routeGates, List.map_cons, List.flatten, ih]
    congr 1
    cases hq : g.qubits with
    | nil => simp [routeSpecBlock, hq]
    | cons q1 t =>
      cases t with
      | nil => simp [routeSpecBlock, hq]
      | cons q2 t2 =>
        cases t2 with
        | nil =>
          simp only [routeSpecBlock, hq, edgeOk]
          by_cases h : (q1, q2) ∈ backend.coupling_map ∨ (q2, q1) ∈ backend.coupling_map
          · rcases h with h | h <;> simp [h]
          · push_neg at h
            simp [h.1, h.2]
        | cons _ _ => simp [routeSpecBlock, hq]

theorem sublist_routeGates (backend : BackendSpec) (gs : List Gate) :
    gs.Sublist (SimpleRouter.routeGates backend gs) := by
  induction gs with
  | nil => simp [SimpleRouter.routeGates]
  | cons g rest ih =>
    simp only [SimpleRouter.routeGates]
    cases hq : g.qubits with
    | nil => exact List.Sublist.cons₂ g ih
    | cons q1 t =>
      cases t with
      | nil => exact List.Sublist.cons₂ g ih
      | cons q2 t2 =>
        cases t2 with
        | nil =>
          by_cases h : edgeOk backend q1 q2 = true
          · simp only [h, if_pos]
            exact List.Sublist.cons₂ g ih
          · simp only [eq_false_of_ne_true h, Bool.false_eq_true, if_false]
            exact List.Sublist.cons (Gate.mk "swap" [q1, q2] []) (List.Sublist.cons₂ g ih)
        | cons _ _ => exact List.Sublist.cons₂ g ih

/-- C1. For every circuit and backend, the routed gate sequence is exactly the
concatenation, over the input gates in order, of: one parameterless `swap`
gate on the same two qubits immediately before the gate when the gate has
exactly two qubit indices and its pair is (in either order) absent from the
backend's connectivity edge list, and nothing extra otherwise — in
particular every input gate (of any arity) appears unchanged, in its
original relative order, as a sublist of the output. -/
theorem C1_router_swap_insertion (circuit : QuantumCircuit) (backend : BackendSpec) :
    (SimpleRouter.route circuit backend).gates
        = (circuit.gates.map (routeSpecBlock backend)).flatten ∧
      circuit.gates.Sublist (SimpleRouter.route circuit backend).gates := by
  exact ⟨routeGates_eq_flatten backend circuit.gates,
    sublist_routeGates backend circuit.gates⟩

theorem cancelGates_length_le (l : List Gate) :
    (GateCancellationPass.cancelGates l).length ≤ l.length := by
  induction l using GateCancellationPass.cancelGates.induct with
  | case1 => simp [GateCancellationPass.cancelGates]
  | case2 g => simp [GateCancellationPass.cancelGates]
  | case3 g1 g2 rest h ih =>
    simp only [GateCancellationPass.cancelGates, if_pos h, List.length_cons]
    omega
  | case4 g1 g2 rest h ih =>
    simp only [GateCancellationPass.cancelGates, if_neg h, List.length_cons]
    simp only [List.length_cons] at ih
    omega

theorem cancelGates_length_mod_two (l : List Gate) :
    (GateCancellationPass.cancelGates l).length % 2 = l.length % 2 := by
  induction l using GateCancellationPass.cancelGates.induct with
  | case1 => rfl
  | case2 g => rfl
  | case3 g1 g2 rest h ih =>
    simp only [GateCancellationPass.cancelGates, if_pos h, List.length_cons]
    omega
  | case4 g1 g2 rest h ih =>
    simp only [GateCancellationPass.cancelGates, if_neg h, List.length_cons]
    simp only [List.length_cons] at ih
    omega

theorem cancelGates_eq_self_of_no_pair (l : List Gate) (h : hasAdjPair l = false) :
    GateCancellationPass.cancelGates l = l := by
  induction l using GateCancellationPass.cancelGates.induct with
  | case1 => rfl
  | case2 g => rfl
  | case3 g1 g2 rest hm ih =>
    exfalso
    simp only [hasAdjPair, Bool.or_eq_false_iff, Bool.and_eq_false_iff] at h
    rcases h.1 with hn | hq
    · exact absurd hm.1 (by simpa using hn)
    · exact absurd hm.2 (by simpa using hq)
  | case4 g1 g2 rest hm ih =>
    simp only [hasAdjPair, Bool.or_eq_false_iff] at h
    simp only [GateCancellationPass.cancelGates, if_neg hm]
    exact congrArg (g1 :: ·) (ih h.2)

theorem cancelGates_length_lt_of_pair (l : List Gate) (h : hasAdjPair l = true) :
    (GateCancellationPass.cancelGates l).length < l.length := by
  induction l using GateCancellationPass.cancelGates.induct with
  | case1 => simp [hasAdjPair] at h
  | case2 g => simp [hasAdjPair] at h
  | case3 g1 g2 rest hm ih =>
    simp only [GateCancellationPass.cancelGates, if_pos hm, List.length_cons]
    have := cancelGates_length_le rest
    omega
  | case4 g1 g2 rest hm ih =>
    simp only [hasAdjPair, Bool.or_eq_true] at h
    rcases h with h | h
    · exfalso
      apply hm
      simp only [Bool.and_eq_true, beq_iff_eq] at h
      exact h
    · simp only [GateCancellationPass.cancelGates, if_neg hm, List.length_cons]
      exact Nat.succ_lt_succ (ih h)

/-- Counterexample to C2 as stated: on `[h q0; x q1; x q1; h q0]` one
application of the cancellation pass yields `[h q0; h q0]`, and a second
application yields `[]` — the pass is not idempotent. -/
theorem C2_cancellation_idempotence_cex :
    GateCancellationPass.optimize
        (GateCancellationPass.optimize
          (QuantumCircuit.mk 2 0
            [Gate.mk "h" [0] [], Gate.mk "x" [1] [],
             Gate.mk "x" [1] [], Gate.mk "h" [0] []]))
      ≠ GateCancellationPass.optimize
          (QuantumCircuit.mk 2 0
            [Gate.mk "h" [0] [], Gate.mk "x" [1] [],
             Gate.mk "x" [1] [], Gate.mk "h" [0] []]) := by
  decide

/-- C2 (amended). The cancellation pass is not idempotent in general:
applying it leaves a circuit unchanged exactly when the circuit has no two
immediately adjacent gates sharing name and ordered qubit list — and the
pass's own output can still contain such a pair. -/
theorem C2_cancellation_fixpoint_iff (circuit : QuantumCircuit) :
    GateCancellationPass.optimize circuit = circuit ↔
      hasAdjPair circuit.gates = false := by
  constructor
  · intro h
    by_contra hp
    have hp' : hasAdjPair circuit.gates = true := by
      cases hb : hasAdjPair circuit.gates
      · exact absurd hb hp
      · rfl
    have hlt := cancelGates_length_lt_of_pair circuit.gates hp'
    have heq : (GateCancellationPass.optimize circuit).gates = circuit.gates := by rw [h]
    simp only [GateCancellationPass.optimize] at heq
    rw [heq] at hlt
    exact lt_irrefl _ hlt
  · intro h
    cases circuit with
    | mk nq ncl gs =>
      simp only [GateCancellationPass.optimize, QuantumCircuit.mk.injEq, true_and]
      exact cancelGates_eq_self_of_no_pair gs h

/-- C10. The cancellation pass never increases the gate count, and the
number of removed gates is even: the output length has the same parity as
the input length. -/
theorem C10_cancellation_length (circuit : QuantumCircuit) :
    (GateCancellationPass.optimize circuit).gates.length ≤ circuit.gates.length ∧
      (GateCancellationPass.optimize circuit).gates.length % 2
        = circuit.gates.length % 2 := by
  exact ⟨cancelGates_length_le circuit.gates, cancelGates_length_mod_two circuit.gates⟩

theorem le_foldl_max (l : List Nat) : ∀ a : Nat, a ≤ l.foldl max a := by
  induction l with
  | nil => intro a; exact le_refl a
  | cons x l ih =>
    intro a
    exact le_trans (le_max_left a x) (ih (max a x))

theorem foldl_max_eq_or_mem (l : List Nat) :
    ∀ a : Nat, l.foldl max a = a ∨ l.foldl max a ∈ l := by
  induction l with
  | nil => intro a; exact Or.inl rfl
  | cons x l ih =>
    intro a
    rcases ih (max a x) with h | h
    · rcases Nat.le_total a x with hx | hx
      · right
        simp only [List.foldl_cons, h]
        simp [Nat.max_eq_right hx]
      · left
        simp only [List.foldl_cons, h]
        exact Nat.max_eq_left hx
    · right
      exact List.mem_cons_of_mem x h

theorem mem_le_foldl_max (l : List Nat) :
    ∀ a x : Nat, x ∈ l → x ≤ l.foldl max a := by
  induction l with
  | nil => intro a x h; exact absurd h (List.not_mem_nil x)
  | cons y l ih =>
    intro a x h
    rcases List.mem_cons.mp h with h | h
    · subst h
      exact le_trans (le_max_right a x) (le_foldl_max l (max a x))
    · exact ih (max a y) x h

theorem foldl_max_zero_le_one (l : List Nat) (h : ∀ x ∈ l, x ≤ 1) :
    l.foldl max 0 ≤ 1 := by
  rcases foldl_max_eq_or_mem l 0 with he | he
  · omega
  · exact h _ he

/-- Marking the listed positions with 1 in a 0/1 clock vector yields maximum 1
exactly when some position is in range or a 1 was already present. -/
theorem foldl_set_one_max (qs : List Nat) :
    ∀ qt : List Nat, (∀ x ∈ qt, x ≤ 1) →
      ((qs.foldl (fun a q => a.set q 1) qt).foldl max 0 = 1 ↔
        (qs.any (fun q => decide (q < qt.length)) = true ∨ 1 ∈ qt)) := by
  induction qs with
  | nil =>
    intro qt hle
    simp only [List.foldl_nil, List.any_nil, Bool.false_eq_true, false_or]
    constructor
    · intro h
      rcases foldl_max_eq_or_mem qt 0 with he | he
      · omega
      · rw [h] at he; exact he
    · intro h
      have h1 := mem_le_foldl_max qt 0 1 h
      have h2 := foldl_max_zero_le_one qt hle
      omega
  | cons q qs ih =>
    intro qt hle
    have hle' : ∀ x ∈ qt.set q 1, x ≤ 1 := by
      intro x hx
      rcases List.mem_or_eq_of_mem_set hx with hx | hx
      · exact hle x hx
      · omega
    have hlen : (qt.set q 1).length = qt.length := List.length_set qt q 1
    rw [List.foldl_cons, ih (qt.set q 1) hle', hlen]
    simp only [List.any_cons, Bool.or_eq_true]
    constructor
    · rintro (h | h)
      · exact Or.inl (Or.inr h)
      · by_cases hq : q < qt.length
        · exact Or.inl (Or.inl (by simpa using hq))
        · rw [List.set_eq_of_length_le (Nat.le_of_not_lt hq)] at h
          exact Or.inr h
    · rintro ((h | h) | h)
      · right
        exact List.mem_set qt q (by simpa using h) 1
      · exact Or.inl h
      · right
        by_cases hq : q < qt.length
        · exact List.mem_set qt q hq 1
        · rw [List.set_eq_of_length_le (Nat.le_of_not_lt hq)]
          exact h

theorem getD_replicate_zero (n : Nat) : ∀ i : Nat, (List.replicate n (0 : Nat)).getD i 0 = 0 := by
  induction n with
  | zero => intro i; rfl
  | succ n ih =>
    intro i
    cases i with
    | zero => rfl
    | succ i =>
      rw [List.replicate_succ]
      exact ih i

/-- Counterexample to C3 as stated: a circuit with one qubit and a single
gate whose only qubit index (1) is out of range has depth 0, not 1. -/
theorem C3_single_gate_depth_cex :
    UniversalTranspiler.calculate_depth
        (QuantumCircuit.mk 1 0 [Gate.mk "h" [1] []]) ≠ 1 := by
  decide

/-- Invariant: marking positions with 1 keeps every clock entry at most 1. -/
theorem foldl_set_one_entries (qs : List Nat) :
    ∀ qt : List Nat, (∀ x ∈ qt, x ≤ 1) →
      ∀ x ∈ qs.foldl (fun a q => a.set q 1) qt, x ≤ 1 := by
  induction qs with
  | nil =>
    intro qt h
    simp only [List.foldl_nil]
    exact h
  | cons q qs ih =>
    intro qt h
    rw [List.foldl_cons]
    apply ih
    intro x hx
    rcases List.mem_or_eq_of_mem_set hx with hx | hx
    · exact h x hx
    · omega

/-- C3 (amended). A circuit with exactly one gate has depth 1 precisely when
the gate has at least one qubit index below the circuit's qubit count;
otherwise (zero declared qubits, a gate with no qubits, or all indices out
of range) the depth is 0. -/
theorem C3_single_gate_depth (nq ncl : Nat) (g : Gate) :
    UniversalTranspiler.calculate_depth (QuantumCircuit.mk nq ncl [g])
      = if g.qubits.any (fun q => decide (q < nq)) then 1 else 0 := by
  by_cases hnq : nq = 0
  · subst hnq
    simp [UniversalTranspiler.calculate_depth]
  · unfold UniversalTranspiler.calculate_depth
    simp only [hnq, if_false, List.foldl_cons, List.foldl_nil]
    have hstart : (g.qubits.map fun q => (List.replicate nq (0 : Nat)).getD q 0).foldl max 0 = 0 := by
      rcases foldl_max_eq_or_mem (g.qubits.map fun q => (List.replicate nq (0 : Nat)).getD q 0) 0
        with he | he
    
      · exact he
      · rcases List.mem_map.mp he with ⟨q, _, hq⟩
        rw [← hq]
        exact getD_replicate_zero nq q
    have hrep : ∀ x ∈ List.replicate nq (0 : Nat), x ≤ 1 := by
      intro x hx
      have := List.eq_of_mem_replicate hx
      omega
    simp only [hstart, Nat.zero_add]
    have hiff := foldl_set_one_max g.qubits (List.replicate nq 0) hrep
    rw [List.length_replicate] at hiff
    have hone : (1 : Nat) ∈ List.replicate nq (0 : Nat) → False := by
      intro h
      exact absurd (List.eq_of_mem_replicate h) one_ne_zero
    by_cases ha : g.qubits.any (fun q => decide (q < nq)) = true
    · rw [if_pos ha]
      exact hiff.mpr (Or.inl ha)
    · rw [if_neg ha]
      have hne : (g.qubits.foldl (fun a q => a.set q 1) (List.replicate nq 0)).foldl max 0 ≠ 1 := by
        intro h
        rcases hiff.mp h with h' | h'
        · exact ha h'
        · exact hone h'
      have hle1 : (g.qubits.foldl (fun a q => a.set q 1) (List.replicate nq 0)).foldl max 0 ≤ 1 :=
        foldl_max_zero_le_one _ (foldl_set_one_entries g.qubits (List.replicate nq 0) hrep)
      omega

theorem collectRz_snd_length (q : Nat) :
    ∀ (a : ℚ) (l : List Gate),
      (RotationMergingPass.collectRz q a l).2.length ≤ l.length := by
  intro a l
  induction l generalizing a with
  | nil => simp [RotationMergingPass.collectRz]
  | cons ng rest ih =>
    by_cases h : rzRun q ng = true
    · simp only [RotationMergingPass.collectRz, if_pos h, List.length_cons]
      exact le_trans (ih (a + ng.params.headD 0)) (Nat.le_succ _)
    · simp [RotationMergingPass.collectRz, h]

theorem length_dropWhile_le (p : Gate → Bool) :
    ∀ l : List Gate, (l.dropWhile p).length ≤ l.length := by
  intro l
  induction l with
  | nil => simp [List.dropWhile]
  | cons x l ih =>
    by_cases h : p x = true
    · simp only [List.dropWhile, h, List.length_cons]
      exact le_trans ih (Nat.le_succ _)
    · simp [List.dropWhile, h]

/-- The accumulator loop computes the spec's run sum and leaves exactly the
gates after the maximal run. -/
theorem collectRz_eq_takeWhile (q : Nat) :
    ∀ (l : List Gate) (a : ℚ),
      RotationMergingPass.collectRz q a l
        = (a + ((l.takeWhile (rzRun q)).map (fun x => x.params.headD 0)).sum,
           l.dropWhile (rzRun q)) := by
  intro l
  induction l with
  | nil =>
    intro a
    simp [RotationMergingPass.collectRz, List.takeWhile, List.dropWhile]
  | cons ng rest ih =>
    intro a
    by_cases h : rzRun q ng = true
    · rw [RotationMergingPass.collectRz, if_pos h, ih, List.takeWhile_cons_of_pos h,
        List.dropWhile_cons_of_pos h, List.map_cons, List.sum_cons, add_assoc]
    · rw [RotationMergingPass.collectRz, if_neg h, List.takeWhile_cons_of_neg h,
        List.dropWhile_cons_of_neg h]
      simp

theorem mergeGates_eq_spec_aux :
    ∀ (n : Nat) (l : List Gate), l.length ≤ n →
      RotationMergingPass.mergeGates l = rzMergeSpec l := by
  intro n
  induction n with
  | zero =>
    intro l hl
    have hnil : l = [] := List.eq_nil_of_length_eq_zero (Nat.le_zero.mp hl)
    subst hnil
    rw [RotationMergingPass.mergeGates, rzMergeSpec]
  | succ n ih =>
    intro l hl
    cases l with
    | nil => rw [RotationMergingPass.mergeGates, rzMergeSpec]
    | cons g rest =>
      simp only [List.length_cons] at hl
      by_cases h : (g.name == "rz" && g.qubits.length == 1 && !g.params.isEmpty) = true
      · rw [RotationMergingPass.mergeGates, rzMergeSpec, if_pos h, if_pos h]
        dsimp only
        rw [collectRz_eq_takeWhile]
        congr 1
        exact ih _ (le_trans (length_dropWhile_le _ rest) (Nat.le_of_succ_le_succ hl))
      · rw [RotationMergingPass.mergeGates, rzMergeSpec, if_neg h, if_neg h,
          ih rest (Nat.le_of_succ_le_succ hl)]

theorem mergeGates_eq_spec (l : List Gate) :
    RotationMergingPass.mergeGates l = rzMergeSpec l :=
  mergeGates_eq_spec_aux l.length l (le_refl _)

/-- C4. The rotation-merging pass computes exactly the spec's description:
each maximal contiguous run of single-qubit parametrized `rz` gates on one
identical qubit becomes a single `rz` with the summed angle, emitted only if
the sum's absolute value exceeds `1e-10` and dropped otherwise; in
particular two consecutive `rz` gates on the same qubit with angles `θ` and
`-θ` are dropped entirely. -/
theorem C4_rotation_merging (circuit : QuantumCircuit) :
    RotationMergingPass.optimize circuit
        = QuantumCircuit.mk circuit.num_qubits circuit.num_clbits
            (rzMergeSpec circuit.gates) ∧
      ∀ (θ : ℚ) (q nq ncl : Nat),
        RotationMergingPass.optimize
            (QuantumCircuit.mk nq ncl [Gate.mk "rz" [q] [θ], Gate.mk "rz" [q] [-θ]])
          = QuantumCircuit.mk nq ncl [] := by
  constructor
  · simp only [RotationMergingPass.optimize, mergeGates_eq_spec]
  · intro θ q nq ncl
    simp only [RotationMergingPass.optimize, QuantumCircuit.mk.injEq, true_and]
    norm_num [RotationMergingPass.mergeGates, RotationMergingPass.collectRz, rzRun,
      mergeEps, add_neg_cancel]

theorem rsplit_ne_nil (p : Char → Bool) : ∀ s : List Char, rsplit p s ≠ [] := by
  intro s
  cases s with
  | nil => simp [rsplit]
  | cons c rest =>
    rw [rsplit]
    by_cases h : p c = true
    · simp [h]
    · simp only [h, Bool.false_eq_true, if_false]
      cases hr : rsplit p rest with
      | nil => simp
      | cons h t => simp

theorem rsplit_headD (p : Char → Bool) :
    ∀ s : List Char, (rsplit p s).headD [] = s.takeWhile (fun c => !p c) := by
  intro s
  induction s with
  | nil => rfl
  | cons c rest ih =>
    rw [rsplit]
    by_cases h : p c = true
    · simp [h, List.takeWhile_cons, h]
    · simp only [h, Bool.false_eq_true, if_false]
      cases hr : rsplit p rest with
      | nil => exact absurd hr (rsplit_ne_nil p rest)
      | cons hd t =>
        rw [hr] at ih
        simp only [List.headD_cons] at ih
        simp [List.takeWhile_cons, h, ih]

theorem rsplit_cons_of_neg (p : Char → Bool) (c : Char) (r : List Char)
    (h : p c = false) :
    rsplit p (c :: r) = (c :: (rsplit p r).headD []) :: (rsplit p r).tail := by
  rw [rsplit]
  simp only [h, Bool.false_eq_true, if_false]
  cases hr : rsplit p r with
  | nil => exact absurd hr (rsplit_ne_nil p r)
  | cons hd t => simp

theorem splitWs_cons_of_not_ws (c : Char) (r : List Char)
    (h : c.isWhitespace = false) :
    splitWs (c :: r)
      = (c :: r.takeWhile (fun x => !x.isWhitespace))
        :: ((rsplit Char.isWhitespace r).tail.filter (fun t => !t.isEmpty)) := by
  rw [splitWs, rsplit_cons_of_neg Char.isWhitespace c r h, List.filter_cons,
    rsplit_headD]
  simp

theorem firstToken_cons_of_not_ws (c : Char) (r : List Char)
    (h : c.isWhitespace = false) :
    firstToken (c :: r) = c :: r.takeWhile (fun x => !x.isWhitespace) := by
  rw [firstToken, splitWs_cons_of_not_ws c r h]
  rfl

/-- A keyword without whitespace is a prefix of `takeWhile not-whitespace`
iff it is a prefix of the list itself. -/
theorem isPrefixOf_takeWhile_not_ws :
    ∀ (kw : List Char), kw.all (fun c => !c.isWhitespace) = true →
      ∀ r : List Char,
        kw.isPrefixOf (r.takeWhile (fun x => !x.isWhitespace)) = kw.isPrefixOf r := by
  intro kw
  induction kw with
  | nil =>
    intro _ r
    simp [List.isPrefixOf]
  | cons k kw ih =>
    intro hall r
    simp only [List.all_cons, Bool.and_eq_true, Bool.not_eq_true'] at hall
    cases r with
    | nil => rfl
    | cons x r =>
      by_cases hx : x.isWhitespace = true
      · rw [List.takeWhile_cons_of_neg (by simp [hx])]
        simp only [List.isPrefixOf]
        have hkx : (k == x) = false := by
          apply beq_eq_false_iff_ne.mpr
          intro hkxeq
          rw [hkxeq] at hall
          rw [hx] at hall
          exact Bool.noConfusion hall.1
        simp [hkx]
      · rw [List.takeWhile_cons_of_pos (by simp [hx])]
        simp only [List.isPrefixOf]
        rw [ih hall.2 r]

/-- A trimmed line is empty or starts with a non-whitespace character. -/
theorem trimChars_head_not_ws :
    ∀ (l : List Char) (c : Char) (r : List Char),
      trimChars l = c :: r → c.isWhitespace = false := by
  intro l
  induction l with
  | nil => intro c r h; exact absurd h (by simp [trimChars])
  | cons x l ih =>
    intro c r h
    by_cases hx : x.isWhitespace = true
    · apply ih c r
      rw [trimChars] at h ⊢
      rwa [List.dropWhile_cons_of_pos (by simp [hx])] at h
    · rw [trimChars, List.dropWhile_cons_of_neg (by simp [hx])] at h
      have hsuf := List.dropWhile_suffix
        (l := (x :: l).reverse) (p := Char.isWhitespace)
      rcases hsuf with ⟨t, ht⟩
      have hrev : c :: r
          = ((x :: l).reverse.dropWhile Char.isWhitespace).reverse := h.symm
      have hrevcat : ((x :: l).reverse.dropWhile Char.isWhitespace).reverse ++ t.reverse
          = x :: l := by
        have := congrArg List.reverse ht
        rwa [List.reverse_append, List.reverse_reverse] at this
      rw [← hrev] at hrevcat
      have hc : c = x := by
        have := congrArg (fun m => m.head? ) hrevcat
        simpa using this
      rw [hc]
      exact Bool.not_eq_true _ ▸ (by simpa using hx)

/-- On a line that is empty or starts with a non-whitespace character, the
claim's first-token recognition rule agrees with the code's line-prefix
rule. -/
theorem recognizedTok_eq_recognizedB (l : List Char)
    (hl : ∀ c r, l = c :: r → c.isWhitespace = false) :
    recognizedTok l = recognizedB l := by
  cases l with
  | nil => rfl
  | cons c r =>
    have hc : c.isWhitespace = false := hl c r rfl
    rw [recognizedTok, recognizedB, firstToken_cons_of_not_ws c r hc]
    have hstep : ∀ kw : List Char, (kw.all fun c => !c.isWhitespace) = true →
        kw.isPrefixOf (c :: r.takeWhile fun x => !x.isWhitespace)
          = kw.isPrefixOf (c :: r) := by
      intro kw hkw
      cases kw with
      | nil => rfl
      | cons k kw =>
        simp only [List.isPrefixOf]
        simp only [List.all_cons, Bool.and_eq_true] at hkw
        rw [isPrefixOf_takeWhile_not_ws kw hkw.2 r]
    rw [hstep "cx".data (by decide), hstep "h".data (by decide),
      hstep "x".data (by decide), hstep "rz".data (by decide)]

/-- A line the code recognizes as a gate line starts with `cx`, `h`, `x`,
or `rz`. -/
theorem recognizedB_shapes (l : List Char) (h : recognizedB l = true) :
    (∃ t, l = 'c' :: 'x' :: t) ∨ (∃ t, l = 'h' :: t) ∨
      (∃ t, l = 'x' :: t) ∨ (∃ t, l = 'r' :: 'z' :: t) := by
  rw [recognizedB] at h
  simp only [Bool.or_eq_true] at h
  rcases h with ((h | h) | h) | h
  · left
    cases l with
    | nil => exact absurd h (by decide)
    | cons c1 t1 =>
      cases t1 with
      | nil => exact absurd h (by
          simp only [List.isPrefixOf, Bool.and_eq_true] at h
          exact absurd h.2 (by decide))
      | cons c2 t2 =>
        simp only [show ("cx".data) = ['c', 'x'] from rfl, List.isPrefixOf,
          Bool.and_eq_true, beq_iff_eq] at h
        exact ⟨t2, by rw [h.1.symm, h.2.1.symm]⟩
  · right; left
    cases l with
    | nil => exact absurd h (by decide)
    | cons c1 t1 =>
      simp only [show ("h".data) = ['h'] from rfl, List.isPrefixOf,
        Bool.and_eq_true, beq_iff_eq] at h
      exact ⟨t1, by rw [h.1.symm]⟩
  · right; right; left
    cases l with
    | nil => exact absurd h (by decide)
    | cons c1 t1 =>
      simp only [show ("x".data) = ['x'] from rfl, List.isPrefixOf,
        Bool.and_eq_true, beq_iff_eq] at h
      exact ⟨t1, by rw [h.1.symm]⟩
  · right; right; right
    cases l with
    | nil => exact absurd h (by decide)
    | cons c1 t1 =>
      cases t1 with
      | nil => exact absurd h (by
          simp only [List.isPrefixOf, Bool.and_eq_true] at h
          exact absurd h.2 (by decide))
      | cons c2 t2 =>
        simp only [show ("rz".data) = ['r', 'z'] from rfl, List.isPrefixOf,
          Bool.and_eq_true, beq_iff_eq] at h
        exact ⟨t2, by rw [h.1.symm, h.2.1.symm]⟩

/-- A recognized gate line is not a `qreg`, `creg`, or comment line. -/
theorem recognizedB_excludes (l : List Char) (h : recognizedB l = true) :
    "qreg".data.isPrefixOf l = false ∧ "creg".data.isPrefixOf l = false ∧
      "//".data.isPrefixOf l = false ∧ l.isEmpty = false := by
  rcases recognizedB_shapes l h with ⟨t, ht⟩ | ⟨t, ht⟩ | ⟨t, ht⟩ | ⟨t, ht⟩ <;>
    subst ht <;>
    exact ⟨by simp [List.isPrefixOf], by simp [List.isPrefixOf],
      by simp [List.isPrefixOf], by simp⟩

/-- A `qreg` or `creg` line is never recognized as a gate line. -/
theorem recognizedB_false_of_reg (l : List Char) :
    ("qreg".data.isPrefixOf l = true ∨ "creg".data.isPrefixOf l = true) →
      recognizedB l = false := by
  intro h
  by_contra hrec
  have hrec' : recognizedB l = true := by
    cases hb : recognizedB l
    · exact absurd hb hrec
    · rfl
  rcases h with h | h
  · rw [(recognizedB_excludes l hrec').1] at h
    exact Bool.noConfusion h
  · rw [(recognizedB_excludes l hrec').2.1] at h
    exact Bool.noConfusion h

/-- On a line with a non-whitespace head, `parse_gate` fails exactly when the
qubit extraction is empty, and then with the claim's error message. -/
theorem parse_gate_cases (c : Char) (r : List Char) (hc : c.isWhitespace = false) :
    (extractedQubits (c :: r) = [] →
      QASMParser.parse_gate (c :: r) = .error (qubitsErrorMsg (c :: r))) ∧
    (extractedQubits (c :: r) ≠ [] → ∃ g, QASMParser.parse_gate (c :: r) = .ok g) := by
  have hsp := splitWs_cons_of_not_ws c r hc
  constructor
  · intro hq
    rw [extractedQubits, hsp] at hq
    dsimp only at hq
    rw [QASMParser.parse_gate, hsp]
    dsimp only
    rw [if_pos hq]
  · intro hq
    rw [extractedQubits, hsp] at hq
    dsimp only at hq
    rw [QASMParser.parse_gate, hsp]
    dsimp only
    rw [if_neg hq]
    exact ⟨_, rfl⟩

/-- A line whose trimmed form is a bad gate line makes the parser loop stop
with the qubit-extraction error for that line. -/
theorem parseLines_cons_bad (l : List Char) (rest : List (List Char))
    (nq ncl : Nat) (gs : List Gate)
    (hbad : badGateLine (trimChars l) = true) :
    QASMParser.parseLines (l :: rest) nq ncl gs
      = .error (qubitsErrorMsg (trimChars l)) := by
  rw [badGateLine] at hbad
  simp only [Bool.and_eq_true, Bool.not_eq_true'] at hbad
  obtain ⟨⟨⟨hne, hcom⟩, hrec⟩, hq⟩ := hbad
  have hrecB : recognizedB (trimChars l) = true := by
    rw [← recognizedTok_eq_recognizedB _ (trimChars_head_not_ws l)]
    exact hrec
  have hex := recognizedB_excludes _ hrecB
  rw [recognizedB] at hrecB
  rw [QASMParser.parseLines]
  simp only [hne, hcom, hex.1, hex.2.1, hrecB, Bool.or_self, Bool.false_eq_true,
    if_false, if_true]
  rcases recognizedB_shapes _ (by rw [recognizedB]; exact hrecB)
    with ⟨t, ht⟩ | ⟨t, ht⟩ | ⟨t, ht⟩ | ⟨t, ht⟩ <;>
  · rw [ht] at hq ⊢
    rw [(parse_gate_cases _ _ (by decide)).1 (List.isEmpty_iff.mp hq), ← ht]

/-- A line whose trimmed form is not a bad gate line lets the parser loop
continue on the remaining lines with some updated state. -/
theorem parseLines_cons_good (l : List Char) (rest : List (List Char))
    (nq ncl : Nat) (gs : List Gate)
    (hbad : badGateLine (trimChars l) = false) :
    ∃ nq2 ncl2 gs2,
      QASMParser.parseLines (l :: rest) nq ncl gs
        = QASMParser.parseLines rest nq2 ncl2 gs2 := by
  rw [QASMParser.parseLines]
  by_cases h1 : ((trimChars l).isEmpty || "//".data.isPrefixOf (trimChars l)) = true
  · simp only [h1, if_true]
    exact ⟨nq, ncl, gs, rfl⟩
  · simp only [h1, Bool.false_eq_true, if_false]
    by_cases h2 : "qreg".data.isPrefixOf (trimChars l) = true
    · simp only [h2, if_true]
      cases hp : (rsplit isBracketDelim (trimChars l)).get? 1 with
      | some p => exact ⟨(parseNatChars p).getD 0, ncl, gs, rfl⟩
      | none => exact ⟨nq, ncl, gs, rfl⟩
    · simp only [h2, Bool.false_eq_true, if_false]
      by_cases h3 : "creg".data.isPrefixOf (trimChars l) = true
      · simp only [h3, if_true]
        cases hp : (rsplit isBracketDelim (trimChars l)).get? 1 with
        | some p => exact ⟨nq, (parseNatChars p).getD 0, gs, rfl⟩
        | none => exact ⟨nq, ncl, gs, rfl⟩
      · simp only [h3, Bool.false_eq_true, if_false]
        by_cases h4 : ("cx".data.isPrefixOf (trimChars l) || "h".data.isPrefixOf (trimChars l)
            || "x".data.isPrefixOf (trimChars l) || "rz".data.isPrefixOf (trimChars l)) = true
        · simp only [h4, if_true]
          have hrecB : recognizedB (trimChars l) = true := by rw [recognizedB]; exact h4
          have hrecT : recognizedTok (trimChars l) = true := by
            rw [recognizedTok_eq_recognizedB _ (trimChars_head_not_ws l)]
            exact hrecB
          have hex := recognizedB_excludes _ hrecB
          have hqne : extractedQubits (trimChars l) ≠ [] := by
            intro hq
            rw [badGateLine, hex.2.2.2, hex.2.2.1, hrecT, hq] at hbad
            simp at hbad
          rcases recognizedB_shapes _ hrecB
            with ⟨t, ht⟩ | ⟨t, ht⟩ | ⟨t, ht⟩ | ⟨t, ht⟩ <;>
          · rw [ht] at hqne ⊢
            obtain ⟨g, hg⟩ := (parse_gate_cases _ _ (by decide)).2 hqne
            rw [hg]
            exact ⟨nq, ncl, gs ++ [g], rfl⟩
        · simp only [h4, Bool.false_eq_true, if_false]
          exact ⟨nq, ncl, gs, rfl⟩

/-- The parser loop errs exactly on the first bad gate line, with that
line's message, and succeeds when no line is bad — for every carried state. -/
theorem parseLines_characterization :
    ∀ (ls : List (List Char)) (nq ncl : Nat) (gs : List Gate),
      (∀ l, ls.find? (fun l => badGateLine (trimChars l)) = some l →
        QASMParser.parseLines ls nq ncl gs
          = .error (qubitsErrorMsg (trimChars l))) ∧
      (ls.find? (fun l => badGateLine (trimChars l)) = none →
        ∃ c, QASMParser.parseLines ls nq ncl gs = .ok c) := by
  intro ls
  induction ls with
  | nil =>
    intro nq ncl gs
    constructor
    · intro l h
      exact absurd h (by simp)
    · intro _
      exact ⟨_, rfl⟩
  | cons l rest ih =>
    intro nq ncl gs
    by_cases hb : badGateLine (trimChars l) = true
    · constructor
      · intro l' h
        rw [@List.find?_cons_of_pos _ (fun l => badGateLine (trimChars l)) l rest hb] at h
        injection h with h
        subst h
        exact parseLines_cons_bad l rest nq ncl gs hb
      · intro h
        rw [@List.find?_cons_of_pos _ (fun l => badGateLine (trimChars l)) l rest hb] at h
        exact absurd h (by simp)
    · have hb' : badGateLine (trimChars l) = false := by
        cases h : badGateLine (trimChars l)
        · rfl
        · exact absurd h hb
      obtain ⟨nq2, ncl2, gs2, hstep⟩ := parseLines_cons_good l rest nq ncl gs hb'
      rw [hstep, @List.find?_cons_of_neg _ (fun l => badGateLine (trimChars l)) l rest
        (by simp [hb'])]
      exact ih nq2 ncl2 gs2

/-- C6. The parser fails exactly when some (trimmed) input line is a
non-empty, non-comment line recognized as a gate line (first token beginning
with `cx`, `h`, `x`, or `rz`) whose qubit extraction is empty; the returned
error carries the message naming the first such line, and no other input
makes the parser fail. -/
theorem C6_parser_failure_characterization (input : String) :
    ((∃ e, QASMParser.parse input = .error e) ↔
      ∃ l ∈ rsplit (fun c => c == '\n') input.data,
        badGateLine (trimChars l) = true) ∧
    (∀ e, QASMParser.parse input = .error e →
      ∃ l, (rsplit (fun c => c == '\n') input.data).find?
              (fun l => badGateLine (trimChars l)) = some l ∧
            e = qubitsErrorMsg (trimChars l)) := by
  have hch := parseLines_characterization (rsplit (fun c => c == '\n') input.data) 0 0 []
  constructor
  · constructor
    · rintro ⟨e, he⟩
      cases hfind : (rsplit (fun c => c == '\n') input.data).find?
          (fun l => badGateLine (trimChars l)) with
      | none =>
        obtain ⟨c, hc⟩ := hch.2 hfind
        rw [QASMParser.parse, hc] at he
        exact Except.noConfusion he
      | some l =>
        have hmem := List.mem_of_find?_eq_some hfind
        have hpl := List.find?_some hfind
        exact ⟨l, hmem, hpl⟩
    · rintro ⟨l, hmem, hbad⟩
      cases hfind : (rsplit (fun c => c == '\n') input.data).find?
          (fun l => badGateLine (trimChars l)) with
      | none =>
        have hnone := List.find?_eq_none.mp hfind l hmem
        rw [hbad] at hnone
        exact absurd rfl hnone
      | some l' =>
        refine ⟨qubitsErrorMsg (trimChars l'), ?_⟩
        rw [QASMParser.parse]
        exact hch.1 l' hfind
  · intro e he
    cases hfind : (rsplit (fun c => c == '\n') input.data).find?
        (fun l => badGateLine (trimChars l)) with
    | none =>
      obtain ⟨c, hc⟩ := hch.2 hfind
      rw [QASMParser.parse, hc] at he
      exact Except.noConfusion he
    | some l =>
      have herr := hch.1 l hfind
      rw [QASMParser.parse, herr] at he
      injection he with h
      exact ⟨l, rfl, h.symm⟩

/-- Witness for C6 at the concrete input `"h;"`, whose only line is a
recognized gate line with no extractable qubit index. -/
theorem C6_witness :
    ∃ l, (rsplit (fun c => c == '\n') "h;".data).find?
            (fun l => badGateLine (trimChars l)) = some l ∧
          "Failed to parse qubits from line: h;" = qubitsErrorMsg (trimChars l) :=
  (C6_parser_failure_characterization "h;").2 "Failed to parse qubits from line: h;" rfl

/-- C5. A parse error is propagated by `transpile` unchanged (nothing else
runs), and a successful parse always yields a successful transpilation. -/
theorem C5_transpile_error_propagation (input : String) (backend : BackendSpec) :
    (∀ e, QASMParser.parse input = .error e →
      UniversalTranspiler.transpile input backend = .error e) ∧
    (∀ c, QASMParser.parse input = .ok c →
      ∃ r, UniversalTranspiler.transpile input backend = .ok r) := by
  constructor
  · intro e h
    rw [UniversalTranspiler.transpile, h]
  · intro c h
    rw [UniversalTranspiler.transpile, h]
    exact ⟨_, rfl⟩

/-- Witness for C5: the input `"h"` fails to parse and `transpile` returns
exactly the parse error; the empty input parses and transpiles. -/
theorem C5_witness :
    UniversalTranspiler.transpile "h" demoBackend
        = .error "Failed to parse qubits from line: h" ∧
      ∃ r, UniversalTranspiler.transpile "" demoBackend = .ok r :=
  ⟨(C5_transpile_error_propagation "h" demoBackend).1
      "Failed to parse qubits from line: h" rfl,
    (C5_transpile_error_propagation "" demoBackend).2
      (QuantumCircuit.mk 0 0 []) rfl⟩

theorem reductionPct_bounds (original final : Nat) :
    0 ≤ reductionPct original final ∧ reductionPct original final ≤ 100 ∧
      (original = 0 → reductionPct original final = 0) := by
  by_cases h : original = 0
  · simp [reductionPct, h]
  · rw [reductionPct, if_neg h]
    have hpos : (0 : ℚ) < (original : ℚ) := by
      have : 0 < original := Nat.pos_of_ne_zero h
      exact_mod_cast this
    have hsub : ((original - final : Nat) : ℚ) ≤ (original : ℚ) := by
      exact_mod_cast Nat.sub_le original final
    have hnn : (0 : ℚ) ≤ ((original - final : Nat) : ℚ) := Nat.cast_nonneg _
    refine ⟨?_, ?_, fun habs => absurd habs h⟩
    · positivity
    · have hdiv : ((original - final : Nat) : ℚ) / (original : ℚ) ≤ 1 :=
        (div_le_one hpos).mpr hsub
      calc ((original - final : Nat) : ℚ) / (original : ℚ) * 100
          ≤ 1 * 100 := by
            apply mul_le_mul_of_nonneg_right hdiv
            norm_num
        _ = 100 := by norm_num

/-- C7. Whenever `transpile` succeeds, both reported reduction percentages
lie in `[0, 100]`, and a zero original count (or depth) reports a reduction
of exactly 0 with no division performed. -/
theorem C7_reduction_bounds (input : String) (backend : BackendSpec)
    (r : TranspilationResult)
    (h : UniversalTranspiler.transpile input backend = .ok r) :
    0 ≤ r.stats.gate_reduction ∧ r.stats.gate_reduction ≤ 100 ∧
      (r.stats.original_gate_count = 0 → r.stats.gate_reduction = 0) ∧
      0 ≤ r.stats.depth_reduction ∧ r.stats.depth_reduction ≤ 100 ∧
      (r.stats.original_depth = 0 → r.stats.depth_reduction = 0) := by
  rw [UniversalTranspiler.transpile] at h
  cases hp : QASMParser.parse input with
  | error e =>
    rw [hp] at h
    exact Except.noConfusion h
  | ok circ0 =>
    rw [hp] at h
    injection h with h
    subst h
    dsimp only
    refine ⟨(reductionPct_bounds _ _).1, (reductionPct_bounds _ _).2.1, ?_, 
      (reductionPct_bounds _ _).1, (reductionPct_bounds _ _).2.1, ?_⟩
    · intro h0
      exact (reductionPct_bounds _ _).2.2 h0
    · intro h0
      exact (reductionPct_bounds _ _).2.2 h0

/-- Witness for C7 at the empty input: transpilation succeeds with zero
counts and both reductions exactly 0. -/
theorem C7_witness :
    0 ≤ (TranspilationStats.mk 0 0 0 0 0 0).gate_reduction ∧
      (TranspilationStats.mk 0 0 0 0 0 0).gate_reduction ≤ 100 ∧
      ((TranspilationStats.mk 0 0 0 0 0 0).original_gate_count = 0 →
        (TranspilationStats.mk 0 0 0 0 0 0).gate_reduction = 0) ∧
      0 ≤ (TranspilationStats.mk 0 0 0 0 0 0).depth_reduction ∧
      (TranspilationStats.mk 0 0 0 0 0 0).depth_reduction ≤ 100 ∧
      ((TranspilationStats.mk 0 0 0 0 0 0).original_depth = 0 →
        (TranspilationStats.mk 0 0 0 0 0 0).depth_reduction = 0) := by
  have h := C7_reduction_bounds "" demoBackend
    (TranspilationResult.mk (QuantumCircuit.mk 0 0 [])
      (TranspilationStats.mk 0 0 0 0 0 0)) (by
        rw [UniversalTranspiler.transpile,
          show QASMParser.parse "" = .ok (QuantumCircuit.mk 0 0 []) from rfl]
        norm_num [SimpleRouter.route, SimpleRouter.routeGates,
          GateCancellationPass.optimize, GateCancellationPass.cancelGates,
          RotationMergingPass.optimize, RotationMergingPass.mergeGates,
          UniversalTranspiler.calculate_depth, reductionPct])
  exact h

/-- C8 (actual behaviour at the claimed input). Transpiling the demo program
against the chain backend yields the gate sequence `[h q0; cx q0,q1;
cx q1,q2]` — the two `rz` gates are cancelled outright, not merged — with
gate count 5 → 3 and depth 5 → 3, not the claimed
`[h q0; cx q0,q1; cx q1,q2; rz(3.1416) q2]` with 5 → 4 and 5 → 4. -/
theorem C8_end_to_end_demo :
    UniversalTranspiler.transpile demoQasm demoBackend
      = .ok (TranspilationResult.mk demoAfterCancel
          (TranspilationStats.mk 5 3 5 3 40 40)) := by
  have hparse : QASMParser.parse demoQasm = .ok demoParsed := rfl
  rw [UniversalTranspiler.transpile, hparse]
  dsimp only
  have hroute : SimpleRouter.route demoParsed demoBackend = demoParsed := rfl
  have hcancel : GateCancellationPass.optimize demoParsed = demoAfterCancel := rfl
  have hmerge : RotationMergingPass.optimize demoAfterCancel = demoAfterCancel := by
    rw [RotationMergingPass.optimize, demoAfterCancel]
    norm_num [RotationMergingPass.mergeGates]
  have hd0 : UniversalTranspiler.calculate_depth demoParsed = 5 := rfl
  have hd2 : UniversalTranspiler.calculate_depth demoAfterCancel = 3 := rfl
  rw [hroute, hcancel, hmerge, hd0, hd2]
  have hlen0 : demoParsed.gates.length = 5 := rfl
  have hlen2 : demoAfterCancel.gates.length = 3 := rfl
  rw [hlen0, hlen2]
  norm_num [reductionPct]

/-- C9. The router and both optimization passes preserve the circuit's qubit
and classical-bit counts; only the gate sequence changes. -/
theorem C9_frame_preservation (circuit : QuantumCircuit) (backend : BackendSpec) :
    (SimpleRouter.route circuit backend).num_qubits = circuit.num_qubits ∧
      (SimpleRouter.route circuit backend).num_clbits = circuit.num_clbits ∧
      (GateCancellationPass.optimize circuit).num_qubits = circuit.num_qubits ∧
      (GateCancellationPass.optimize circuit).num_clbits = circuit.num_clbits ∧
      (RotationMergingPass.optimize circuit).num_qubits = circuit.num_qubits ∧
      (RotationMergingPass.optimize circuit).num_clbits = circuit.num_clbits :=
  ⟨rfl, rfl, rfl, rfl, rfl, rfl⟩
